import Mathlib

/-!
Verification of the `internal/negotiator` media-type negotiation core.

Shallow embedding of `src/internal/negotiator/mediatype.go` (package
`negotiator` of the fiber repository).  Go strings are modelled as `List Char`
(the headers handled are ASCII); Go `float64` quality values are idealised as
exact rationals `ℚ`; the Go `map[string]string` parameter table is modelled as
an association list with overwrite-on-insert (matching Go map assignment) —
all observable behaviour used by the code (exact-key lookup with zero-value
default, iteration over entries) is represented.

The only loop of the source that is not structurally terminating is the one
in `splitMediaTypes`; it is embedded fuel-indexed (`splitLoop`), with `none`
meaning the Go loop has not finished within the given number of iterations.
Every other function is a direct total translation.
-/

namespace Negotiator

/-- Go strings, modelled as lists of characters. -/
abbrev Str := List Char

/-- Coerce a Lean string literal to the `Str` model. -/
def str (s : String) : Str := s.data

/-- Whitespace recognised by `strings.TrimSpace` (ASCII fragment). -/
def isSpaceChar (c : Char) : Bool :=
  c = ' ' || c = '\t' || c = '\n' || c = '\r' || c = '\x0b' || c = '\x0c'

/-- Drop leading whitespace. -/
def trimLeft : Str → Str
  | [] => []
  | c :: rest => if isSpaceChar c then trimLeft rest else c :: rest

/-- Model of `strings.TrimSpace`: drop leading and trailing whitespace. -/
def trimSpace (s : Str) : Str :=
  (trimLeft (trimLeft s).reverse).reverse

/-- Model of `strings.IndexByte`: index of the first occurrence of `c`. -/
def indexOfChar (c : Char) : Str → Option Nat
  | [] => none
  | x :: rest => if x = c then some 0 else (indexOfChar c rest).map (· + 1)

/-- Model of `quoteCount` (mediatype.go line 223): `strings.Count(str, "\"")`. -/
def quoteCount : Str → Nat
  | [] => 0
  | c :: rest => (if c = '"' then 1 else 0) + quoteCount rest

/-- Model of `strings.Split(s, sep)` for a one-character separator:
always returns at least one (possibly empty) piece. -/
def splitOnChar (c : Char) : Str → List Str
  | [] => [[]]
  | x :: rest =>
    if x = c then [] :: splitOnChar c rest
    else
      match splitOnChar c rest with
      | [] => [[x]]
      | s :: ss => (x :: s) :: ss

/-- Model of `strings.SplitN(s, sep, 2)` for a one-character separator:
split at the first occurrence only. -/
def splitFirst (c : Char) (s : Str) : List Str :=
  match indexOfChar c s with
  | none => [s]
  | some i => [s.take i, s.drop (i + 1)]

/-- Model of `strings.EqualFold` on the ASCII fragment: equality of the
character-wise lower-casings. -/
def eqFold (a b : Str) : Bool := a.map Char.toLower == b.map Char.toLower

/-- Decimal digit test. -/
def isDigitChar (c : Char) : Bool := '0' ≤ c && c ≤ '9'

/-- Numeric value of a digit string (most significant first). -/
def digitsToNat (s : Str) : Nat :=
  s.foldl (fun n c => n * 10 + (c.toNat - '0'.toNat)) 0

/-- Apply an optional leading minus sign. -/
def applySign (neg : Bool) (q : ℚ) : ℚ := if neg then -q else q

/-- Model of `strconv.ParseFloat` restricted to plain decimal notation
`[+-]digits[.digits]` (the grammar produced by `q=` parameters), with the
binary floating value idealised as the exact decimal rational
`digits.digits = (int ++ frac) / 10 ^ |frac|`.  Any other input is a parse
error (`none`). -/
def parseFloat (s : Str) : Option ℚ :=
  let signAndRest : Bool × Str :=
    match s with
    | '+' :: r => (false, r)
    | '-' :: r => (true, r)
    | r => (false, r)
  let neg := signAndRest.1
  let s1 := signAndRest.2
  let intPart := s1.takeWhile isDigitChar
  let rest1 := s1.dropWhile isDigitChar
  match rest1 with
  | [] =>
    if intPart.isEmpty then none
    else some (applySign neg (mkRat (digitsToNat intPart) 1))
  | '.' :: fracRest =>
    let fracPart := fracRest.takeWhile isDigitChar
    let rest2 := fracRest.dropWhile isDigitChar
    if rest2 = [] && !(intPart.isEmpty && fracPart.isEmpty) then
      some (applySign neg
        (mkRat (digitsToNat (intPart ++ fracPart)) (10 ^ fracPart.length)))
    else none
  | _ => none

/-- The `mediaType` struct of mediatype.go: type, subtype, parameter map,
quality `Q`, source index `I`, specificity score `S`.  A freshly parsed value
carries the Go zero value `S = 0`. -/
structure MediaType where
  «Type» : Str
  Subtype : Str
  Params : List (Str × Str)
  Q : ℚ
  I : Nat
  S : Nat
deriving DecidableEq

/-- Go map assignment `m[k] = v`: overwrite an existing binding or append. -/
def insertParam : List (Str × Str) → Str → Str → List (Str × Str)
  | [], k, v => [(k, v)]
  | (k0, v0) :: rest, k, v =>
    if k0 = k then (k, v) :: rest else (k0, v0) :: insertParam rest k v

/-- Go map read `m[k]` with the zero value `""` for a missing key. -/
def lookupD (ps : List (Str × Str)) (k : Str) : Str :=
  match ps.find? (fun kv => kv.1 == k) with
  | some kv => kv.2
  | none => []

/-- One iteration of the parameter loop of `parseMediaType`
(mediatype.go lines 111-128): split on the first `=`, ignore pieces without
`=`, let key `q` set the quality when its value parses, store others. -/
def applyParam (mt : MediaType) (part : Str) : MediaType :=
  let param := splitFirst '=' part
  if param.length ≠ 2 then mt
  else
    let key := trimSpace (param.getD 0 [])
    let value := trimSpace (param.getD 1 [])
    if key = ['q'] then
      match parseFloat value with
      | some q => { mt with Q := q }
      | none => mt
    else { mt with Params := insertParam mt.Params key value }

/-- Model of `parseMediaType` (mediatype.go lines 95-131): split on `;`,
require a `/` in the base token, default quality `1.0`, then fold the
parameter pieces. -/
def parseMediaType (s : Str) (i : Nat) : Option MediaType :=
  let parts := splitOnChar ';' s
  let typeAndSubtype := splitFirst '/' (parts.headD [])
  if typeAndSubtype.length ≠ 2 then none
  else
    some ((parts.drop 1).foldl applyParam
      { «Type» := trimSpace (typeAndSubtype.getD 0 [])
        Subtype := trimSpace (typeAndSubtype.getD 1 [])
        Params := []
        Q := 1
        I := i
        S := 0 })

/-- The indexed loop of `parseAccept` (mediatype.go lines 84-89), started at
counter value `i`: trim each segment, parse it, drop segments that fail. -/
def parseAcceptFrom (i : Nat) : List Str → List MediaType
  | [] => []
  | s :: rest =>
    match parseMediaType (trimSpace s) i with
    | some mt => mt :: parseAcceptFrom (i + 1) rest
    | none => parseAcceptFrom (i + 1) rest

/-- Model of `parseAccept`'s loop over the segments (counter starts at 0). -/
def parseAcceptSegs (segs : List Str) : List MediaType :=
  parseAcceptFrom 0 segs

/-- The loop of `splitMediaTypes` (mediatype.go lines 204-217), fuel-indexed:
`none` means the Go loop has not exited within `fuel` iterations.  The
`continue` of line 213 recurses with the state unchanged (the comma index is
recomputed on the same trimmed string). -/
def splitLoop : Nat → Str → List Str → Option (List Str)
  | fuel, accept, parts =>
    if accept.isEmpty then some parts
    else
      match fuel with
      | 0 => none
      | fuel' + 1 =>
        let a := trimSpace accept
        match indexOfChar ',' a with
        | none => some (parts ++ [a])
        | some idx =>
          if quoteCount (a.take idx) % 2 = 1 then
            splitLoop fuel' a parts
          else
            splitLoop fuel' (a.drop (idx + 1)) (parts ++ [a.take idx])

/-- Model of `splitMediaTypes` (mediatype.go lines 201-220).  Every loop
iteration that advances consumes at least one character, so `length + 1`
fuel is exact: a `none` result means the Go loop never exits. -/
def splitMediaTypesTotal (accept : Str) : Option (List Str) :=
  splitLoop (accept.length + 1) accept []

/-- The comparator passed to `sort.SliceStable` (mediatype.go lines 41-49):
quality descending, then specificity score descending, then original index
ascending. -/
def lessSpec (a b : MediaType) : Bool :=
  if a.Q ≠ b.Q then decide (a.Q > b.Q)
  else if a.S ≠ b.S then decide (a.S > b.S)
  else decide (a.I < b.I)

/-- The comparator restricted to quality and index (no specificity key). -/
def lessSpecQI (a b : MediaType) : Bool :=
  if a.Q ≠ b.Q then decide (a.Q > b.Q)
  else decide (a.I < b.I)

/-- Stable insertion of `x` into a sorted prefix: `x` goes after every
element it is not strictly less-than. -/
def insertStable (less : MediaType → MediaType → Bool) (x : MediaType) :
    List MediaType → List MediaType
  | [] => [x]
  | y :: l => if less x y then x :: y :: l else y :: insertStable less x l

/-- Model of `sort.SliceStable` with comparator `less`: the unique stable
sort, realised as left-to-right stable insertion. -/
def sortSliceStable (less : MediaType → MediaType → Bool)
    (l : List MediaType) : List MediaType :=
  l.foldl (fun acc x => insertStable less x acc) []

/-- Model of `isQuality` (mediatype.go line 191): quality strictly positive. -/
def isQuality (mt : MediaType) : Bool := decide (mt.Q > 0)

/-- Model of `getFullType` (mediatype.go line 196): `Type + "/" + Subtype`. -/
def getFullType (mt : MediaType) : Str := mt.«Type» ++ '/' :: mt.Subtype

/-- The parameter loop of `specify` (mediatype.go lines 172-178): every
parameter declared on the spec must be `*` or case-insensitively equal to the
candidate's value for that key (zero value `""` when absent); the returned
score contribution is `1` exactly when at least one check passed. -/
def specParamsCheck (pParams : List (Str × Str)) :
    List (Str × Str) → Option Nat
  | [] => some 0
  | (key, val) :: rest =>
    if val = ['*'] || eqFold val (lookupD pParams key) then
      match specParamsCheck pParams rest with
      | some s => some (s ||| 1)
      | none => none
    else none

/-- Model of `specify` (mediatype.go lines 151-188): parse the candidate,
score bit 4 for an exact (case-insensitive) type match (wildcard `*`
tolerated at score 0, anything else fails), bit 2 likewise for the subtype,
bit 1 from the parameter loop; on success return a copy of the spec with the
score and the caller's index. -/
def specify (typ : Str) (spec : MediaType) (index : Nat) : Option MediaType :=
  match parseMediaType typ 0 with
  | none => none
  | some p =>
    match (if eqFold spec.«Type» p.«Type» then some 4
           else if spec.«Type» ≠ ['*'] then none else some 0 : Option Nat) with
    | none => none
    | some sT =>
      match (if eqFold spec.Subtype p.Subtype then some 2
             else if spec.Subtype ≠ ['*'] then none else some 0 : Option Nat) with
      | none => none
      | some sS =>
        match specParamsCheck p.Params spec.Params with
        | none => none
        | some sP =>
          some { «Type» := spec.«Type», Subtype := spec.Subtype,
                 Params := spec.Params, Q := spec.Q, I := index,
                 S := sT ||| sS ||| sP }

/-- The accumulator loop of `getMediaTypePriority` (mediatype.go lines
137-145): keep the current best, replacing it when a new match has a strictly
higher score, or an equal score and strictly higher quality. -/
def priorityFold (typ : Str) (index : Nat) :
    List MediaType → Option MediaType → Option MediaType
  | [], priority => priority
  | a :: rest, priority =>
    let s := specify typ a index
    let priority' :=
      match s, priority with
      | some sp, none => some sp
      | some sp, some pr =>
        if sp.S > pr.S ∨ (sp.S = pr.S ∧ sp.Q > pr.Q) then some sp else some pr
      | none, pr => pr
    priorityFold typ index rest priority'

/-- Model of `getMediaTypePriority` (mediatype.go lines 134-148). -/
def getMediaTypePriority (typ : Str) (accepted : List MediaType)
    (index : Nat) : Option MediaType :=
  priorityFold typ index accepted none

/-- The no-candidates branch of `PreferredMediaTypes` (mediatype.go lines
51-59), applied to the already-sorted spec list: emit `type/subtype` for
every spec of positive quality. -/
def noCandidatesOutput (accepts : List MediaType) : List Str :=
  accepts.filterMap fun mt => if isQuality mt then some (getFullType mt) else none

/-- The candidates branch of `PreferredMediaTypes` (mediatype.go lines
62-76), applied to the already-sorted spec list: collect one best match per
candidate (dropping candidates with none), then emit, in that order, the
original candidate string of every match with positive quality. -/
def candidatesOutput (accepts : List MediaType) (provided : List Str) :
    List Str :=
  let priorities := (provided.enum).filterMap fun iv =>
    getMediaTypePriority iv.2 accepts iv.1
  priorities.filterMap fun priority =>
    if isQuality priority then some (provided.getD priority.I []) else none

/-- Model of `PreferredMediaTypes` (mediatype.go lines 35-77).  `none`
reports that the segmenter's loop does not terminate on this header. -/
def PreferredMediaTypes (accept : Str) (provided : List Str) :
    Option (List Str) :=
  let a := if accept = [] then str "*/*" else accept
  match splitMediaTypesTotal a with
  | none => none
  | some segs =>
    let accepts := sortSliceStable lessSpec (parseAcceptSegs segs)
    if provided.isEmpty then some (noCandidatesOutput accepts)
    else some (candidatesOutput accepts provided)

/-! ## Sanity checks against the repository's own test vectors -/

theorem splitMediaTypes_basic :
    splitMediaTypesTotal (str "text/html, application/json") =
      some [str "text/html", str "application/json"] := by decide

theorem preferred_wildcard_vector :
    PreferredMediaTypes (str "text/html, */*") [str "application/xml"] =
      some [str "application/xml"] := by decide

theorem preferred_mixed_vector :
    PreferredMediaTypes (str "text/html, application/*;q=0.2, image/jpeg;q=0.8")
      [str "text/html", str "text/plain", str "application/json"] =
      some [str "text/html", str "application/json"] := by decide

theorem preferred_no_candidates_vector :
    PreferredMediaTypes (str "text/html, application/*;q=0.2, image/jpeg;q=0.8") [] =
      some [str "text/html", str "image/jpeg", str "application/*"] := by decide

/-! ## C1: termination of the segmenter -/

lemma splitLoop_quoted_comma_stuck :
    ∀ (fuel : Nat) (parts : List Str),
      splitLoop fuel (str "\"a,b") parts = none := by
  intro fuel
  induction fuel with
  | zero => intro parts; rfl
  | succ n ih =>
    intro parts
    have hstep : splitLoop (n + 1) (str "\"a,b") parts =
        splitLoop n (str "\"a,b") parts := rfl
    rw [hstep]
    exact ih parts

/-- C1: the claim states that `splitMediaTypes` terminates on every input,
even with unbalanced quotes.  The code refutes this: on the header `"a,b`
the first comma lies after an odd number of quotes, the `continue` branch
re-runs the loop body on an unchanged state, and the loop never exits — for
every iteration budget the fuel-indexed model reports non-termination, and
`PreferredMediaTypes` on such a header never produces a result. -/
theorem C1_splitMediaTypes_loops_forever :
    (∀ (fuel : Nat) (parts : List Str),
       splitLoop fuel (str "\"a,b") parts = none) ∧
    splitMediaTypesTotal (str "\"a,b") = none ∧
    PreferredMediaTypes (str "\"a,b") [str "a/b"] = none := by
  refine ⟨splitLoop_quoted_comma_stuck, splitLoop_quoted_comma_stuck _ _, ?_⟩
  show (match splitMediaTypesTotal (str "\"a,b") with
        | none => none
        | some segs =>
          let accepts := sortSliceStable lessSpec (parseAcceptSegs segs)
          if ([str "a/b"] : List Str).isEmpty then some (noCandidatesOutput accepts)
          else some (candidatesOutput accepts [str "a/b"]) : Option (List Str)) = none
  have h : splitMediaTypesTotal (str "\"a,b") = none :=
    splitLoop_quoted_comma_stuck _ _
  rw [h]

/-! ## C2: ordering of the candidates branch -/

/-- C2: the claim states that the per-candidate best-match results are sorted
by the ordering rule (quality descending, specificity descending, index
ascending) before the candidate strings are emitted, so that the output is
most-preferred first.  The code refutes this: `priorities` is emitted in
candidate order without any sort, so with quality 0.2 on `text/html` and 0.8
on `application/json` the candidate listed first is emitted first even though
it is less preferred (the sorted output would list `application/json`
first). -/
theorem C2_candidates_branch_not_sorted :
    PreferredMediaTypes (str "text/html;q=0.2, application/json;q=0.8")
      [str "text/html", str "application/json"] =
    some [str "text/html", str "application/json"] := by decide

/-! ## C9: determinism -/

/-- C9: `PreferredMediaTypes` is a deterministic pure function of its two
inputs: two calls with identical accept header and candidate list yield
identical output.  (Absence of mutation holds by construction of the
embedding: every operation of the source is value-level.) -/
theorem C9_preferredMediaTypes_deterministic
    (a1 a2 : Str) (p1 p2 : List Str) (ha : a1 = a2) (hp : p1 = p2) :
    PreferredMediaTypes a1 p1 = PreferredMediaTypes a2 p2 := by
  rw [ha, hp]

theorem C9_witness :
    PreferredMediaTypes (str "text/html") [str "text/html"] =
      PreferredMediaTypes (str "text/html") [str "text/html"] :=
  C9_preferredMediaTypes_deterministic _ _ _ _ rfl rfl

/-! ## C6: entries of non-positive quality are never emitted -/

/-- C6: in both branches an entry whose quality is not strictly positive is
excluded from the output entirely — every string emitted by the no-candidates
branch originates from a spec with `Q > 0`, every string emitted by the
candidates branch originates from a best match with `Q > 0`, and in
particular `preferredMediaTypes("application/json;q=0", "application/json")`
is empty. -/
theorem C6_quality_zero_excluded :
    (∀ (l : List MediaType) (x : Str), x ∈ noCandidatesOutput l →
       ∃ mt ∈ l, 0 < mt.Q ∧ x = getFullType mt) ∧
    (∀ (l : List MediaType) (provided : List Str) (x : Str),
       x ∈ candidatesOutput l provided →
       ∃ pr : MediaType, 0 < pr.Q ∧ x = provided.getD pr.I [] ∧
         ∃ iv ∈ provided.enum, getMediaTypePriority iv.2 l iv.1 = some pr) ∧
    PreferredMediaTypes (str "application/json;q=0") [str "application/json"] =
      some [] := by
  refine ⟨?_, ?_, by decide⟩
  · intro l x hx
    simp only [noCandidatesOutput, List.mem_filterMap] at hx
    obtain ⟨mt, hmem, hmt⟩ := hx
    by_cases hq : isQuality mt
    · refine ⟨mt, hmem, by simpa [isQuality] using hq, ?_⟩
      simp only [hq, if_true] at hmt
      exact (Option.some.injEq _ _ ▸ hmt).symm
    · simp [hq] at hmt
  · intro l provided x hx
    simp only [candidatesOutput, List.mem_filterMap] at hx
    obtain ⟨pr, hpr, hx2⟩ := hx
    obtain ⟨iv, hiv, hgm⟩ := hpr
    by_cases hq : isQuality pr
    · refine ⟨pr, by simpa [isQuality] using hq, ?_, iv, hiv, hgm⟩
      simp only [hq, if_true] at hx2
      exact (Option.some.injEq _ _ ▸ hx2).symm
    · simp [hq] at hx2

theorem C6_witness :
    (∃ mt ∈ [({ «Type» := str "a", Subtype := str "b", Params := [],
                Q := 1, I := 0, S := 0 } : MediaType)],
       0 < mt.Q ∧ str "a/b" = getFullType mt) ∧
    PreferredMediaTypes (str "application/json;q=0") [str "application/json"] =
      some [] :=
  ⟨C6_quality_zero_excluded.1
     [{ «Type» := str "a", Subtype := str "b", Params := [],
        Q := 1, I := 0, S := 0 }] (str "a/b") (by decide),
   C6_quality_zero_excluded.2.2⟩

/-! ## C8: malformed segments are dropped silently -/

lemma parseAcceptFrom_append (l1 l2 : List Str) :
    ∀ i, parseAcceptFrom i (l1 ++ l2) =
      parseAcceptFrom i l1 ++ parseAcceptFrom (i + l1.length) l2 := by
  induction l1 with
  | nil => intro i; simp [parseAcceptFrom]
  | cons s rest ih =>
    intro i
    simp only [List.cons_append, parseAcceptFrom]
    have harith : i + 1 + rest.length = i + (rest.length + 1) := by omega
    cases h : parseMediaType (trimSpace s) i with
    | none => rw [List.append_eq, ih (i + 1), harith]; rfl
    | some mt => rw [List.append_eq, ih (i + 1), harith]; rfl

lemma splitFirst_length (c : Char) (s : Str) :
    (splitFirst c s).length = if indexOfChar c s = none then 1 else 2 := by
  unfold splitFirst
  cases h : indexOfChar c s <;> simp

lemma parseMediaType_eq_none_iff (s : Str) (i : Nat) :
    parseMediaType s i = none ↔
      indexOfChar '/' ((splitOnChar ';' s).headD []) = none := by
  cases h : indexOfChar '/' ((splitOnChar ';' s).headD []) with
  | none =>
    simp only [parseMediaType, splitFirst, h]
    simp
  | some j =>
    simp only [parseMediaType, splitFirst, h]
    simp

/-- C8: a segment whose base token (before the first `;`) contains no `/`
separator is dropped silently: `parseMediaType` rejects exactly those
segments, and the parsing loop simply continues with the remaining segments
(their indices unchanged), never failing the overall call. -/
theorem C8_malformed_segment_dropped :
    (∀ (s : Str) (i : Nat), parseMediaType s i = none ↔
        indexOfChar '/' ((splitOnChar ';' s).headD []) = none) ∧
    (∀ (i : Nat) (pre : List Str) (bad : Str) (post : List Str),
        parseMediaType (trimSpace bad) (i + pre.length) = none →
        parseAcceptFrom i (pre ++ bad :: post) =
          parseAcceptFrom i pre ++ parseAcceptFrom (i + pre.length + 1) post) := by
  refine ⟨parseMediaType_eq_none_iff, ?_⟩
  intro i pre bad post hbad
  rw [parseAcceptFrom_append pre (bad :: post) i]
  simp only [parseAcceptFrom, hbad]

theorem C8_witness :
    (parseMediaType (str "foo") 0 = none ↔
       indexOfChar '/' ((splitOnChar ';' (str "foo")).headD []) = none) ∧
    parseAcceptFrom 0 ([str "a/b"] ++ str "foo" :: [str "c/d"]) =
      parseAcceptFrom 0 [str "a/b"] ++ parseAcceptFrom 2 [str "c/d"] :=
  ⟨C8_malformed_segment_dropped.1 (str "foo") 0,
   C8_malformed_segment_dropped.2 0 [str "a/b"] (str "foo") [str "c/d"] (by decide)⟩

/-! ## C3: best-match selection in getMediaTypePriority -/

/-- Verification-layer order on match results: `r` is no better than `p`
(lower specificity score, or equal score and no higher quality). -/
def priorityLE (r p : MediaType) : Prop :=
  r.S < p.S ∨ (r.S = p.S ∧ r.Q ≤ p.Q)

lemma priorityLE_refl (p : MediaType) : priorityLE p p :=
  Or.inr ⟨rfl, le_refl _⟩

lemma priorityLE_trans {a b c : MediaType} (h1 : priorityLE a b)
    (h2 : priorityLE b c) : priorityLE a c := by
  rcases h1 with h1 | ⟨h1, h1q⟩ <;> rcases h2 with h2 | ⟨h2, h2q⟩
  · exact Or.inl (Nat.lt_trans h1 h2)
  · exact Or.inl (h2 ▸ h1)
  · exact Or.inl (h1 ▸ h2)
  · exact Or.inr ⟨h1.trans h2, h1q.trans h2q⟩

lemma priorityFold_char (typ : Str) (index : Nat) :
    ∀ (rest : List MediaType) (acc : Option MediaType),
      (priorityFold typ index rest acc = none ↔
        (acc = none ∧ ∀ mt ∈ rest, specify typ mt index = none)) ∧
      (∀ p, priorityFold typ index rest acc = some p →
        (acc = some p ∨ ∃ mt ∈ rest, specify typ mt index = some p) ∧
        (∀ q, acc = some q → priorityLE q p) ∧
        (∀ mt ∈ rest, ∀ r, specify typ mt index = some r → priorityLE r p)) := by
  intro rest
  induction rest with
  | nil =>
    intro acc
    refine ⟨by simp [priorityFold], fun p hp => ?_⟩
    have hacc : acc = some p := hp
    refine ⟨Or.inl hacc, fun q hq => ?_, by simp⟩
    rw [hacc] at hq
    obtain rfl := Option.some.inj hq
    exact priorityLE_refl p
  | cons a rest ih =>
    intro acc
    cases hs : specify typ a index with
    | none =>
      have hstep : priorityFold typ index (a :: rest) acc =
          priorityFold typ index rest acc := by
        simp [priorityFold, hs]
      constructor
      · rw [hstep, (ih acc).1]
        constructor
        · rintro ⟨h1, h2⟩
          refine ⟨h1, fun mt hmt => ?_⟩
          rcases List.mem_cons.mp hmt with rfl | hmt
          · exact hs
          · exact h2 mt hmt
        · rintro ⟨h1, h2⟩
          exact ⟨h1, fun mt hmt => h2 mt (List.mem_cons_of_mem _ hmt)⟩
      · intro p hp
        rw [hstep] at hp
        obtain ⟨horig, hq, hdom⟩ := (ih acc).2 p hp
        refine ⟨?_, hq, ?_⟩
        · rcases horig with h | ⟨mt, hmt, hmteq⟩
          · exact Or.inl h
          · exact Or.inr ⟨mt, List.mem_cons_of_mem _ hmt, hmteq⟩
        · intro mt hmt r hr
          rcases List.mem_cons.mp hmt with rfl | hmt
          · rw [hs] at hr; cases hr
          · exact hdom mt hmt r hr
    | some sp =>
      cases acc with
      | none =>
        have hstep : priorityFold typ index (a :: rest) none =
            priorityFold typ index rest (some sp) := by
          simp [priorityFold, hs]
        constructor
        · rw [hstep]
          constructor
          · intro hnone
            obtain ⟨h, -⟩ := ((ih (some sp)).1).mp hnone
            cases h
          · rintro ⟨-, h2⟩
            have ha := h2 a (List.mem_cons_self a rest)
            rw [hs] at ha
            cases ha
        · intro p hp
          rw [hstep] at hp
          obtain ⟨horig, hq, hdom⟩ := (ih (some sp)).2 p hp
          have hsp_le : priorityLE sp p := hq sp rfl
          refine ⟨?_, ?_, ?_⟩
          · rcases horig with h | ⟨mt, hmt, hmteq⟩
            · exact Or.inr ⟨a, List.mem_cons_self a rest, by rw [hs]; exact h⟩
            · exact Or.inr ⟨mt, List.mem_cons_of_mem _ hmt, hmteq⟩
          · intro q hq2; cases hq2
          · intro mt hmt r hr
            rcases List.mem_cons.mp hmt with rfl | hmt2
            · rw [hs] at hr
              obtain rfl := Option.some.inj hr
              exact hsp_le
            · exact hdom mt hmt2 r hr
      | some pr =>
        by_cases hcond : sp.S > pr.S ∨ (sp.S = pr.S ∧ sp.Q > pr.Q)
        · have hstep : priorityFold typ index (a :: rest) (some pr) =
              priorityFold typ index rest (some sp) := by
            simp [priorityFold, hs, hcond]
          have hple : priorityLE pr sp := by
            rcases hcond with h | ⟨h1, h2⟩
            · exact Or.inl h
            · exact Or.inr ⟨h1.symm, le_of_lt h2⟩
          constructor
          · rw [hstep]
            constructor
            · intro hnone
              obtain ⟨h, -⟩ := ((ih (some sp)).1).mp hnone
              cases h
            · rintro ⟨h, -⟩; cases h
          · intro p hp
            rw [hstep] at hp
            obtain ⟨horig, hq, hdom⟩ := (ih (some sp)).2 p hp
            have hsp_le : priorityLE sp p := hq sp rfl
            refine ⟨?_, ?_, ?_⟩
            · rcases horig with h | ⟨mt, hmt, hmteq⟩
              · exact Or.inr ⟨a, List.mem_cons_self a rest, by rw [hs]; exact h⟩
              · exact Or.inr ⟨mt, List.mem_cons_of_mem _ hmt, hmteq⟩
            · intro q hq2
              obtain rfl := Option.some.inj hq2
              exact priorityLE_trans hple hsp_le
            · intro mt hmt r hr
              rcases List.mem_cons.mp hmt with rfl | hmt2
              · rw [hs] at hr
                obtain rfl := Option.some.inj hr
                exact hsp_le
              · exact hdom mt hmt2 r hr
        · have hstep : priorityFold typ index (a :: rest) (some pr) =
              priorityFold typ index rest (some pr) := by
            simp [priorityFold, hs, hcond]
          have hsple : priorityLE sp pr := by
            push_neg at hcond
            obtain ⟨h1, h2⟩ := hcond
            rcases Nat.lt_or_ge sp.S pr.S with h | h
            · exact Or.inl h
            · have heq : sp.S = pr.S := Nat.le_antisymm h1 h
              exact Or.inr ⟨heq, h2 heq⟩
          constructor
          · rw [hstep]
            constructor
            · intro hnone
              obtain ⟨h, -⟩ := ((ih (some pr)).1).mp hnone
              cases h
            · rintro ⟨h, -⟩; cases h
          · intro p hp
            rw [hstep] at hp
            obtain ⟨horig, hq, hdom⟩ := (ih (some pr)).2 p hp
            have hpr_le : priorityLE pr p := hq pr rfl
            refine ⟨?_, ?_, ?_⟩
            · rcases horig with h | ⟨mt, hmt, hmteq⟩
              · exact Or.inl h
              · exact Or.inr ⟨mt, List.mem_cons_of_mem _ hmt, hmteq⟩
            · intro q hq2
              obtain rfl := Option.some.inj hq2
              exact hpr_le
            · intro mt hmt r hr
              rcases List.mem_cons.mp hmt with rfl | hmt2
              · rw [hs] at hr
                obtain rfl := Option.some.inj hr
                exact priorityLE_trans hsple hpr_le
              · exact hdom mt hmt2 r hr

/-- C3: the best match chosen for a candidate by `getMediaTypePriority` is a
match of one of the parsed specs, and it dominates every other match: any
match `r` has a strictly lower specificity score, or an equal score and no
higher quality.  A candidate with no matching spec yields `none` (and is then
dropped by the caller). -/
theorem C3_getMediaTypePriority_best (typ : Str) (accepted : List MediaType)
    (index : Nat) :
    (getMediaTypePriority typ accepted index = none ↔
      ∀ mt ∈ accepted, specify typ mt index = none) ∧
    (∀ p, getMediaTypePriority typ accepted index = some p →
      (∃ mt ∈ accepted, specify typ mt index = some p) ∧
      ∀ mt ∈ accepted, ∀ r, specify typ mt index = some r →
        r.S < p.S ∨ (r.S = p.S ∧ r.Q ≤ p.Q)) := by
  obtain ⟨h1, h2⟩ := priorityFold_char typ index accepted none
  constructor
  · rw [getMediaTypePriority, h1]; simp
  · intro p hp
    obtain ⟨horig, -, hdom⟩ := h2 p hp
    refine ⟨?_, hdom⟩
    rcases horig with h | h
    · cases h
    · exact h

theorem C3_witness :
    (∃ mt ∈ [({ «Type» := str "text", Subtype := str "html", Params := [],
                Q := 1, I := 0, S := 0 } : MediaType)],
        specify (str "text/html") mt 0 =
          some { «Type» := str "text", Subtype := str "html", Params := [],
                 Q := 1, I := 0, S := 6 }) ∧
    ∀ mt ∈ [({ «Type» := str "text", Subtype := str "html", Params := [],
               Q := 1, I := 0, S := 0 } : MediaType)],
      ∀ r, specify (str "text/html") mt 0 = some r →
        r.S < 6 ∨ (r.S = 6 ∧ r.Q ≤ 1) :=
  (C3_getMediaTypePriority_best (str "text/html")
    [{ «Type» := str "text", Subtype := str "html", Params := [],
       Q := 1, I := 0, S := 0 }] 0).2
    { «Type» := str "text", Subtype := str "html", Params := [],
      Q := 1, I := 0, S := 6 } (by decide)

/-! ## C5: the specificity matcher -/

lemma specParamsCheck_none_iff (pp ps : List (Str × Str)) :
    specParamsCheck pp ps = none ↔
      ∃ kv ∈ ps, kv.2 ≠ ['*'] ∧ eqFold kv.2 (lookupD pp kv.1) = false := by
  induction ps with
  | nil => simp [specParamsCheck]
  | cons kv rest ih =>
    obtain ⟨key, val⟩ := kv
    by_cases hpass : (decide (val = ['*']) || eqFold val (lookupD pp key)) = true
    · have hstep : specParamsCheck pp ((key, val) :: rest) =
          (match specParamsCheck pp rest with
           | some s => some (s ||| 1)
           | none => none) := by
        simp [specParamsCheck, hpass]
      rw [hstep]
      cases hres : specParamsCheck pp rest with
      | none =>
        constructor
        · intro _
          obtain ⟨kv2, h2, h3⟩ := ih.mp hres
          exact ⟨kv2, List.mem_cons_of_mem _ h2, h3⟩
        · intro _; rfl
      | some s =>
        constructor
        · intro h; cases h
        · rintro ⟨kv2, h2, h3, h4⟩
          rcases List.mem_cons.mp h2 with heq2 | h2
          · rcases Bool.or_eq_true_iff.mp hpass with hv | hv
            · exact absurd (of_decide_eq_true hv)
                (by rw [heq2] at h3; exact h3)
            · rw [heq2] at h4
              simp only at h4
              rw [hv] at h4
              cases h4
          · have := ih.mpr ⟨kv2, h2, h3, h4⟩
            rw [this] at hres
            cases hres
    · have hval : val ≠ ['*'] := by
        intro hv
        exact hpass (by simp [hv])
      have heqf : eqFold val (lookupD pp key) = false := by
        cases h : eqFold val (lookupD pp key)
        · rfl
        · exact absurd (by simp [h]) hpass
      have hstep : specParamsCheck pp ((key, val) :: rest) = none := by
        simp only [specParamsCheck]
        rw [if_neg]
        intro hc
        exact hpass hc
      rw [hstep]
      exact iff_of_true rfl ⟨(key, val), List.mem_cons_self _ _, hval, heqf⟩

lemma specParamsCheck_some (pp ps : List (Str × Str)) :
    ∀ s, specParamsCheck pp ps = some s → s = if ps = [] then 0 else 1 := by
  induction ps with
  | nil =>
    intro s hs
    have : (0 : Nat) = s := Option.some.inj hs
    simp [← this]
  | cons kv rest ih =>
    obtain ⟨key, val⟩ := kv
    intro s hs
    simp only [specParamsCheck] at hs
    by_cases hpass : (decide (val = ['*']) || eqFold val (lookupD pp key)) = true
    · rw [if_pos hpass] at hs
      cases hres : specParamsCheck pp rest with
      | none => rw [hres] at hs; cases hs
      | some s0 =>
        rw [hres] at hs
        have hs0 : s0 ||| 1 = s := Option.some.inj hs
        have h0 := ih s0 hres
        rcases List.eq_nil_or_concat rest with hrest | _
        · subst hrest
          simp only [if_pos rfl] at h0
          subst h0
          simp [← hs0]
        · simp only [← hs0, h0]
          split <;> simp
    · rw [if_neg hpass] at hs
      cases hs

lemma specParamsCheck_congr (pp pp2 : List (Str × Str)) :
    ∀ ps : List (Str × Str),
      (∀ kv ∈ ps, lookupD pp kv.1 = lookupD pp2 kv.1) →
      specParamsCheck pp ps = specParamsCheck pp2 ps := by
  intro ps
  induction ps with
  | nil => intro _; rfl
  | cons kv rest ih =>
    intro h
    obtain ⟨key, val⟩ := kv
    have hk : lookupD pp key = lookupD pp2 key :=
      h (key, val) (List.mem_cons_self _ _)
    have hrest := ih fun kv2 hkv2 => h kv2 (List.mem_cons_of_mem _ hkv2)
    simp only [specParamsCheck, hk, hrest]

lemma specify_eq_none_iff (typ : Str) (spec : MediaType) (index : Nat)
    (p : MediaType) (hp : parseMediaType typ 0 = some p) :
    specify typ spec index = none ↔
      (eqFold spec.«Type» p.«Type» = false ∧ spec.«Type» ≠ ['*']) ∨
      (eqFold spec.Subtype p.Subtype = false ∧ spec.Subtype ≠ ['*']) ∨
      (∃ kv ∈ spec.Params, kv.2 ≠ ['*'] ∧
         eqFold kv.2 (lookupD p.Params kv.1) = false) := by
  simp only [specify, hp]
  cases hT : eqFold spec.«Type» p.«Type» with
  | false =>
    by_cases hTs : spec.«Type» = ['*']
    · simp only [hT, hTs, Bool.false_eq_true, if_false, ne_eq,
        not_true_eq_false, if_false, ite_self]
      cases hS : eqFold spec.Subtype p.Subtype with
      | false =>
        by_cases hSs : spec.Subtype = ['*']
        · simp only [hS, hSs, Bool.false_eq_true, if_false, ne_eq,
            not_true_eq_false, ite_self]
          rw [← specParamsCheck_none_iff p.Params spec.Params]
          cases hps : specParamsCheck p.Params spec.Params <;> simp [hps, hTs]
        · simp [hS, hSs, hTs]
      | true =>
        simp only [hS, if_true]
        rw [← specParamsCheck_none_iff p.Params spec.Params]
        cases hps : specParamsCheck p.Params spec.Params <;> simp [hps, hTs, hS]
    · simp [hT, hTs]
  | true =>
    simp only [hT, if_true]
    cases hS : eqFold spec.Subtype p.Subtype with
    | false =>
      by_cases hSs : spec.Subtype = ['*']
      · simp only [hS, hSs, Bool.false_eq_true, if_false, ne_eq,
          not_true_eq_false, ite_self]
        rw [← specParamsCheck_none_iff p.Params spec.Params]
        cases hps : specParamsCheck p.Params spec.Params <;> simp [hps, hT, hS]
      · simp [hS, hSs, hT]
    | true =>
      simp only [hS, if_true]
      rw [← specParamsCheck_none_iff p.Params spec.Params]
      cases hps : specParamsCheck p.Params spec.Params <;> simp [hps, hT, hS]

lemma specify_eq_some (typ : Str) (spec : MediaType) (index : Nat)
    (p r : MediaType) (hp : parseMediaType typ 0 = some p)
    (hr : specify typ spec index = some r) :
    r.S = ((if eqFold spec.«Type» p.«Type» then 4 else 0) |||
           (if eqFold spec.Subtype p.Subtype then 2 else 0) |||
           (if spec.Params = [] then 0 else 1)) ∧
    r.«Type» = spec.«Type» ∧ r.Subtype = spec.Subtype ∧
    r.Params = spec.Params ∧ r.Q = spec.Q ∧ r.I = index := by
  simp only [specify, hp] at hr
  have main : ∀ sT sS : Nat,
      (match specParamsCheck p.Params spec.Params with
       | none => (none : Option MediaType)
       | some sP =>
         some { «Type» := spec.«Type», Subtype := spec.Subtype,
                Params := spec.Params, Q := spec.Q, I := index,
                S := sT ||| sS ||| sP }) = some r →
      r.S = (sT ||| sS ||| (if spec.Params = [] then 0 else 1)) ∧
      r.«Type» = spec.«Type» ∧ r.Subtype = spec.Subtype ∧
      r.Params = spec.Params ∧ r.Q = spec.Q ∧ r.I = index := by
    intro sT sS hmatch
    cases hps : specParamsCheck p.Params spec.Params with
    | none => rw [hps] at hmatch; cases hmatch
    | some sP =>
      rw [hps] at hmatch
      have hrec := (Option.some.inj hmatch).symm
      subst hrec
      rw [specParamsCheck_some p.Params spec.Params sP hps]
      exact ⟨rfl, rfl, rfl, rfl, rfl, rfl⟩
  cases hT : eqFold spec.«Type» p.«Type» with
  | false =>
    by_cases hTs : spec.«Type» = ['*']
    · rw [hT] at hr
      simp only [Bool.false_eq_true, if_false] at hr
      rw [if_neg (fun hne => hne hTs)] at hr
      cases hS : eqFold spec.Subtype p.Subtype with
      | false =>
        by_cases hSs : spec.Subtype = ['*']
        · rw [hS] at hr
          simp only [Bool.false_eq_true, if_false] at hr
          rw [if_neg (fun hne => hne hSs)] at hr
          simpa [hT, hS] using main 0 0 hr
        · rw [hS] at hr
          simp only [Bool.false_eq_true, if_false, ne_eq, hSs,
            not_false_eq_true, if_true] at hr
          cases hr
      | true =>
        rw [hS] at hr
        simp only [if_true] at hr
        simpa [hT, hS] using main 0 2 hr
    · rw [hT] at hr
      simp only [Bool.false_eq_true, if_false, ne_eq, hTs, not_false_eq_true,
        if_true] at hr
      cases hr
  | true =>
    rw [hT] at hr
    simp only [if_true] at hr
    cases hS : eqFold spec.Subtype p.Subtype with
    | false =>
      by_cases hSs : spec.Subtype = ['*']
      · rw [hS] at hr
        simp only [Bool.false_eq_true, if_false] at hr
        rw [if_neg (fun hne => hne hSs)] at hr
        simpa [hT, hS] using main 4 0 hr
      · rw [hS] at hr
        simp only [Bool.false_eq_true, if_false, ne_eq, hSs, not_false_eq_true,
          if_true] at hr
        cases hr
    | true =>
      rw [hS] at hr
      simp only [if_true] at hr
      simpa [hT, hS] using main 4 2 hr

lemma specify_congr (typ typ2 : Str) (spec : MediaType) (index : Nat)
    (p p2 : MediaType) (hp : parseMediaType typ 0 = some p)
    (hp2 : parseMediaType typ2 0 = some p2)
    (hT : p.«Type» = p2.«Type») (hS : p.Subtype = p2.Subtype)
    (hP : ∀ kv ∈ spec.Params, lookupD p.Params kv.1 = lookupD p2.Params kv.1) :
    specify typ spec index = specify typ2 spec index := by
  simp only [specify, hp, hp2, ← hT, ← hS,
    specParamsCheck_congr p.Params p2.Params spec.Params hP]

/-- C5: `specify` returns absent exactly when the candidate cannot be parsed
as type/subtype, or the spec's type differs case-insensitively from the
candidate's and is not `*`, or likewise for the subtype, or some parameter
declared on the spec is neither `*` nor case-insensitively equal to the
candidate's value for that key; on success the score is the bitwise OR of
bit 4 (type matched exactly), bit 2 (subtype matched exactly) and bit 1 (the
spec declared at least one parameter, all of which matched), and parameters
present only on the candidate never affect the outcome (the result depends
on the candidate only through its type, subtype, and values at the spec's
declared keys). -/
theorem C5_specify_characterization (typ : Str) (spec : MediaType)
    (index : Nat) :
    (specify typ spec index = none ↔
      parseMediaType typ 0 = none ∨
      ∃ p, parseMediaType typ 0 = some p ∧
        ((eqFold spec.«Type» p.«Type» = false ∧ spec.«Type» ≠ ['*']) ∨
         (eqFold spec.Subtype p.Subtype = false ∧ spec.Subtype ≠ ['*']) ∨
         (∃ kv ∈ spec.Params, kv.2 ≠ ['*'] ∧
            eqFold kv.2 (lookupD p.Params kv.1) = false))) ∧
    (∀ p r, parseMediaType typ 0 = some p → specify typ spec index = some r →
      r.S = ((if eqFold spec.«Type» p.«Type» then 4 else 0) |||
             (if eqFold spec.Subtype p.Subtype then 2 else 0) |||
             (if spec.Params = [] then 0 else 1)) ∧
      r.«Type» = spec.«Type» ∧ r.Subtype = spec.Subtype ∧
      r.Params = spec.Params ∧ r.Q = spec.Q ∧ r.I = index) ∧
    (∀ typ2 p p2, parseMediaType typ 0 = some p →
      parseMediaType typ2 0 = some p2 →
      p.«Type» = p2.«Type» → p.Subtype = p2.Subtype →
      (∀ kv ∈ spec.Params, lookupD p.Params kv.1 = lookupD p2.Params kv.1) →
      specify typ spec index = specify typ2 spec index) := by
  refine ⟨?_, fun p r hp hr => specify_eq_some typ spec index p r hp hr,
    fun typ2 p p2 hp hp2 h1 h2 h3 =>
      specify_congr typ typ2 spec index p p2 hp hp2 h1 h2 h3⟩
  cases hp : parseMediaType typ 0 with
  | none => simp [specify, hp]
  | some p =>
    rw [specify_eq_none_iff typ spec index p hp]
    constructor
    · intro h
      exact Or.inr ⟨p, rfl, h⟩
    · rintro (h | ⟨q, hq, hbad⟩)
      · cases h
      · obtain rfl := Option.some.inj hq
        exact hbad

theorem C5_witness :
    ((6 : Nat) = 6 ∧ str "text" = str "text" ∧ str "html" = str "html" ∧
      ([] : List (Str × Str)) = [] ∧ (1 : ℚ) = 1 ∧ (0 : Nat) = 0) ∧
    specify (str "text/html")
        { «Type» := str "text", Subtype := str "html", Params := [],
          Q := 1, I := 0, S := 0 } 0 =
      specify (str "text/html;foo=bar")
        { «Type» := str "text", Subtype := str "html", Params := [],
          Q := 1, I := 0, S := 0 } 0 :=
  ⟨(C5_specify_characterization (str "text/html")
      { «Type» := str "text", Subtype := str "html", Params := [],
        Q := 1, I := 0, S := 0 } 0).2.1
      { «Type» := str "text", Subtype := str "html", Params := [], Q := 1,
        I := 0, S := 0 }
      { «Type» := str "text", Subtype := str "html", Params := [], Q := 1,
        I := 0, S := 6 } (by decide) (by decide),
   (C5_specify_characterization (str "text/html")
      { «Type» := str "text", Subtype := str "html", Params := [],
        Q := 1, I := 0, S := 0 } 0).2.2 (str "text/html;foo=bar")
      { «Type» := str "text", Subtype := str "html", Params := [], Q := 1,
        I := 0, S := 0 }
      { «Type» := str "text", Subtype := str "html",
        Params := [(str "foo", str "bar")], Q := 1, I := 0, S := 0 }
      (by decide) (by decide) (by decide) (by decide) (by decide)⟩

/-! ## Sorting lemmas for the stable sort of the preference resolver -/

lemma lessSpec_true_iff (a b : MediaType) :
    lessSpec a b = true ↔
      b.Q < a.Q ∨ (a.Q = b.Q ∧ b.S < a.S) ∨
        (a.Q = b.Q ∧ a.S = b.S ∧ a.I < b.I) := by
  unfold lessSpec
  by_cases h1 : a.Q = b.Q
  · by_cases h2 : a.S = b.S
    · rw [if_neg (fun hne => hne h1), if_neg (fun hne => hne h2)]
      simp [h1, h2]
    · rw [if_neg (fun hne => hne h1), if_pos h2]
      constructor
      · intro h
        exact Or.inr (Or.inl ⟨h1, of_decide_eq_true h⟩)
      · rintro (h | ⟨-, hs⟩ | ⟨-, hs, -⟩)
        · exact absurd h1 (ne_of_gt h)
        · exact decide_eq_true hs
        · exact absurd hs h2
  · rw [if_pos h1]
    constructor
    · intro h
      exact Or.inl (of_decide_eq_true h)
    · rintro (h | ⟨hq, -⟩ | ⟨hq, -⟩)
      · exact decide_eq_true h
      · exact absurd hq h1
      · exact absurd hq h1

lemma lessSpec_asymm {a b : MediaType} (h : lessSpec a b = true) :
    lessSpec b a = false := by
  rw [lessSpec_true_iff] at h
  cases habs : lessSpec b a with
  | false => rfl
  | true =>
    exfalso
    rw [lessSpec_true_iff] at habs
    rcases h with h | ⟨hq, hs⟩ | ⟨hq, hs, hi⟩ <;>
      rcases habs with g | ⟨gq, gs⟩ | ⟨gq, gs, gi⟩
    · exact lt_asymm g h
    · exact lt_irrefl _ (gq ▸ h)
    · exact lt_irrefl _ (gq ▸ h)
    · exact lt_irrefl _ (hq ▸ g)
    · omega
    · omega
    · exact lt_irrefl _ (hq ▸ g)
    · omega
    · omega

lemma lessSpec_trans {a b c : MediaType} (h1 : lessSpec a b = true)
    (h2 : lessSpec b c = true) : lessSpec a c = true := by
  rw [lessSpec_true_iff] at h1 h2 ⊢
  rcases h1 with h | ⟨hq, hs⟩ | ⟨hq, hs, hi⟩ <;>
    rcases h2 with g | ⟨gq, gs⟩ | ⟨gq, gs, gi⟩
  · exact Or.inl (lt_trans g h)
  · exact Or.inl (by rw [← gq]; exact h)
  · exact Or.inl (by rw [← gq]; exact h)
  · exact Or.inl (by rw [hq]; exact g)
  · exact Or.inr (Or.inl ⟨hq.trans gq, by omega⟩)
  · exact Or.inr (Or.inl ⟨hq.trans gq, by omega⟩)
  · exact Or.inl (by rw [hq]; exact g)
  · exact Or.inr (Or.inl ⟨hq.trans gq, by omega⟩)
  · exact Or.inr (Or.inr ⟨hq.trans gq, hs.trans gs, by omega⟩)

lemma insertStable_perm (less : MediaType → MediaType → Bool) (x : MediaType) :
    ∀ l, (insertStable less x l).Perm (x :: l) := by
  intro l
  induction l with
  | nil => exact List.Perm.refl _
  | cons y l ih =>
    simp only [insertStable]
    cases hxy : less x y with
    | true => rw [if_pos rfl]
    | false =>
      rw [if_neg Bool.false_ne_true]
      exact (ih.cons y).trans (List.Perm.swap x y l)

lemma sortfold_perm (less : MediaType → MediaType → Bool) :
    ∀ (l acc : List MediaType),
      (l.foldl (fun acc x => insertStable less x acc) acc).Perm (acc ++ l) := by
  intro l
  induction l with
  | nil => intro acc; simp
  | cons x l ih =>
    intro acc
    simp only [List.foldl_cons]
    have h1 := ih (insertStable less x acc)
    have h2 : (insertStable less x acc ++ l).Perm ((x :: acc) ++ l) :=
      (insertStable_perm less x acc).append_right l
    exact (h1.trans h2).trans List.perm_middle.symm

lemma sortSliceStable_perm (less : MediaType → MediaType → Bool)
    (l : List MediaType) : (sortSliceStable less l).Perm l := by
  simpa using sortfold_perm less l []

lemma insertStable_sorted (less : MediaType → MediaType → Bool)
    (hasym : ∀ a b, less a b = true → less b a = false)
    (htrans : ∀ a b c, less a b = true → less b c = true → less a c = true)
    (x : MediaType) :
    ∀ l, l.Pairwise (fun a b => less b a = false) →
      (insertStable less x l).Pairwise (fun a b => less b a = false) := by
  intro l
  induction l with
  | nil => intro _; simp [insertStable]
  | cons y l ih =>
    intro hp
    obtain ⟨hy, hl⟩ := List.pairwise_cons.mp hp
    simp only [insertStable]
    cases hxy : less x y with
    | true =>
      rw [if_pos rfl]
      refine List.Pairwise.cons ?_ hp
      intro z hz
      rcases List.mem_cons.mp hz with rfl | hz
      · exact hasym x z hxy
      · cases hzx : less z x with
        | false => rfl
        | true =>
          have hzy := htrans z x y hzx hxy
          rw [hy z hz] at hzy
          cases hzy
    | false =>
      rw [if_neg Bool.false_ne_true]
      refine List.Pairwise.cons ?_ (ih hl)
      intro z hz
      rcases List.mem_cons.mp
          (((insertStable_perm less x l).mem_iff).mp hz) with rfl | hz
      · exact hxy
      · exact hy z hz

lemma sortfold_sorted (less : MediaType → MediaType → Bool)
    (hasym : ∀ a b, less a b = true → less b a = false)
    (htrans : ∀ a b c, less a b = true → less b c = true → less a c = true) :
    ∀ (l acc : List MediaType),
      acc.Pairwise (fun a b => less b a = false) →
      (l.foldl (fun acc x => insertStable less x acc) acc).Pairwise
        (fun a b => less b a = false) := by
  intro l
  induction l with
  | nil => intro acc h; simpa using h
  | cons x l ih =>
    intro acc h
    simp only [List.foldl_cons]
    exact ih _ (insertStable_sorted less hasym htrans x acc h)

lemma sortSliceStable_sorted (l : List MediaType) :
    (sortSliceStable lessSpec l).Pairwise
      (fun a b => lessSpec b a = false) :=
  sortfold_sorted lessSpec (fun _ _ h => lessSpec_asymm h)
    (fun _ _ _ h1 h2 => lessSpec_trans h1 h2) l [] List.Pairwise.nil

/-! ## Index and score invariants of freshly parsed specs -/

lemma applyParam_I (mt : MediaType) (part : Str) :
    (applyParam mt part).I = mt.I := by
  simp only [applyParam]
  split_ifs
  · rfl
  · cases parseFloat (trimSpace ((splitFirst '=' part).getD 1 [])) <;> rfl
  · rfl

lemma applyParam_S (mt : MediaType) (part : Str) :
    (applyParam mt part).S = mt.S := by
  simp only [applyParam]
  split_ifs
  · rfl
  · cases parseFloat (trimSpace ((splitFirst '=' part).getD 1 [])) <;> rfl
  · rfl

lemma foldl_applyParam_I (parts : List Str) :
    ∀ mt : MediaType, (parts.foldl applyParam mt).I = mt.I := by
  induction parts with
  | nil => intro mt; rfl
  | cons p rest ih =>
    intro mt
    simp only [List.foldl_cons]
    rw [ih, applyParam_I]

lemma foldl_applyParam_S (parts : List Str) :
    ∀ mt : MediaType, (parts.foldl applyParam mt).S = mt.S := by
  induction parts with
  | nil => intro mt; rfl
  | cons p rest ih =>
    intro mt
    simp only [List.foldl_cons]
    rw [ih, applyParam_S]

lemma parseMediaType_I (s : Str) (i : Nat) (mt : MediaType)
    (h : parseMediaType s i = some mt) : mt.I = i := by
  simp only [parseMediaType] at h
  by_cases hlen : (splitFirst '/' ((splitOnChar ';' s).headD [])).length ≠ 2
  · rw [if_pos hlen] at h; cases h
  · rw [if_neg hlen] at h
    rw [← Option.some.inj h, foldl_applyParam_I]

lemma parseMediaType_S (s : Str) (i : Nat) (mt : MediaType)
    (h : parseMediaType s i = some mt) : mt.S = 0 := by
  simp only [parseMediaType] at h
  by_cases hlen : (splitFirst '/' ((splitOnChar ';' s).headD [])).length ≠ 2
  · rw [if_pos hlen] at h; cases h
  · rw [if_neg hlen] at h
    rw [← Option.some.inj h, foldl_applyParam_S]

lemma parseAcceptFrom_I_lt :
    ∀ (segs : List Str) (i : Nat),
      (∀ mt ∈ parseAcceptFrom i segs, i ≤ mt.I) ∧
      (parseAcceptFrom i segs).Pairwise (fun a b => a.I < b.I) := by
  intro segs
  induction segs with
  | nil => intro i; exact ⟨by simp [parseAcceptFrom], by simp [parseAcceptFrom]⟩
  | cons s rest ih =>
    intro i
    simp only [parseAcceptFrom]
    obtain ⟨h1, h2⟩ := ih (i + 1)
    cases h : parseMediaType (trimSpace s) i with
    | none =>
      exact ⟨fun mt hmt => Nat.le_trans (Nat.le_succ i) (h1 mt hmt), h2⟩
    | some mt =>
      have hI : mt.I = i := parseMediaType_I _ _ _ h
      refine ⟨?_, ?_⟩
      · intro z hz
        rcases List.mem_cons.mp hz with rfl | hz
        · rw [hI]
        · exact Nat.le_trans (Nat.le_succ i) (h1 z hz)
      · refine List.Pairwise.cons ?_ h2
        intro z hz
        have := h1 z hz
        omega

/-! ## C4: the no-candidates branch uses one deterministic stable sort -/

lemma sorted_filter_stable (l : List MediaType)
    (hI : l.Pairwise fun a b => a.I < b.I) (q : ℚ) (s : Nat) :
    (sortSliceStable lessSpec l).filter
        (fun m => decide (m.Q = q) && decide (m.S = s)) =
      l.filter (fun m => decide (m.Q = q) && decide (m.S = s)) := by
  have hperm : (sortSliceStable lessSpec l).Perm l := sortSliceStable_perm _ l
  have hpermF := hperm.filter (fun m => decide (m.Q = q) && decide (m.S = s))
  have hsortedF : ((sortSliceStable lessSpec l).filter
      (fun m => decide (m.Q = q) && decide (m.S = s))).Pairwise
      (fun a b => lessSpec b a = false) :=
    (sortSliceStable_sorted l).sublist (List.filter_sublist _)
  have hIF : (l.filter (fun m => decide (m.Q = q) && decide (m.S = s))).Pairwise
      (fun a b => a.I < b.I) := hI.sublist (List.filter_sublist _)
  have hle : ((sortSliceStable lessSpec l).filter
      (fun m => decide (m.Q = q) && decide (m.S = s))).Pairwise
      (fun a b => a.I ≤ b.I) := by
    refine hsortedF.imp_of_mem ?_
    intro a b ha hb hab
    have hpa := List.of_mem_filter ha
    have hpb := List.of_mem_filter hb
    obtain ⟨haq, has⟩ := Bool.and_eq_true_iff.mp hpa
    obtain ⟨hbq, hbs⟩ := Bool.and_eq_true_iff.mp hpb
    have haq' : a.Q = q := of_decide_eq_true haq
    have has' : a.S = s := of_decide_eq_true has
    have hbq' : b.Q = q := of_decide_eq_true hbq
    have hbs' : b.S = s := of_decide_eq_true hbs
    unfold lessSpec at hab
    rw [if_neg (by rw [haq', hbq']; exact fun hne => hne rfl),
        if_neg (by rw [has', hbs']; exact fun hne => hne rfl)] at hab
    exact Nat.not_lt.mp (of_decide_eq_false hab)
  have hneF : ((sortSliceStable lessSpec l).filter
      (fun m => decide (m.Q = q) && decide (m.S = s))).Pairwise
      (fun a b => a.I ≠ b.I) := by
    exact (hpermF.pairwise_iff fun h => Ne.symm h).mpr
      (hIF.imp fun h => Nat.ne_of_lt h)
  have hltF : ((sortSliceStable lessSpec l).filter
      (fun m => decide (m.Q = q) && decide (m.S = s))).Pairwise
      (fun a b => a.I < b.I) :=
    (hle.and hneF).imp fun h => Nat.lt_of_le_of_ne h.1 h.2
  haveI : IsAntisymm MediaType (fun a b => a.I < b.I) :=
    ⟨fun a b h1 h2 => absurd h2 (Nat.lt_asymm h1)⟩
  exact List.eq_of_perm_of_sorted hpermF hltF hIF

/-- C4: the no-candidates branch sorts the parsed specs with one
deterministic stable sort keyed on quality descending, then specificity
score descending, then original index ascending: the sorted list is a
permutation of the parsed list, it is sorted with respect to the comparator,
and among specs with equal quality and equal specificity score the output
order equals the input order (stability law); the original-index keys of any
parsed spec list are strictly increasing, which the stability law relies
on. -/
theorem C4_noCandidates_sort_stable (l : List MediaType)
    (hI : l.Pairwise fun a b => a.I < b.I) :
    (sortSliceStable lessSpec l).Perm l ∧
    (sortSliceStable lessSpec l).Pairwise (fun a b => lessSpec b a = false) ∧
    (∀ (q : ℚ) (s : Nat),
      (sortSliceStable lessSpec l).filter
          (fun m => decide (m.Q = q) && decide (m.S = s)) =
        l.filter (fun m => decide (m.Q = q) && decide (m.S = s))) ∧
    (∀ (i : Nat) (segs : List Str),
      (parseAcceptFrom i segs).Pairwise fun a b => a.I < b.I) :=
  ⟨sortSliceStable_perm lessSpec l, sortSliceStable_sorted l,
   fun q s => sorted_filter_stable l hI q s,
   fun i segs => (parseAcceptFrom_I_lt segs i).2⟩

theorem C4_witness :
    (sortSliceStable lessSpec
        [{ «Type» := str "a", Subtype := str "b", Params := [], Q := 1,
           I := 0, S := 0 },
         { «Type» := str "c", Subtype := str "d", Params := [], Q := 1,
           I := 1, S := 0 }]).filter
        (fun m => decide (m.Q = 1) && decide (m.S = 0)) =
      ([{ «Type» := str "a", Subtype := str "b", Params := [], Q := 1,
          I := 0, S := 0 },
        { «Type» := str "c", Subtype := str "d", Params := [], Q := 1,
          I := 1, S := 0 }] : List MediaType).filter
        (fun m => decide (m.Q = 1) && decide (m.S = 0)) :=
  (C4_noCandidates_sort_stable
    [{ «Type» := str "a", Subtype := str "b", Params := [], Q := 1,
       I := 0, S := 0 },
     { «Type» := str "c", Subtype := str "d", Params := [], Q := 1,
       I := 1, S := 0 }] (by decide)).2.2.1 1 0

/-! ## C10: the specificity key never influences the no-candidates branch -/

lemma lessSpec_of_S_zero (a b : MediaType) (ha : a.S = 0) (hb : b.S = 0) :
    lessSpec a b = lessSpecQI a b := by
  unfold lessSpec lessSpecQI
  by_cases hq : a.Q = b.Q
  · rw [if_neg (fun hne => hne hq),
        if_neg (show ¬(a.S ≠ b.S) from fun hne => hne (ha.trans hb.symm)),
        if_neg (fun hne => hne hq)]
  · rw [if_pos hq, if_pos hq]

lemma insertStable_congr (less less' : MediaType → MediaType → Bool)
    (x : MediaType) :
    ∀ l, (∀ y ∈ l, less x y = less' x y) →
      insertStable less x l = insertStable less' x l := by
  intro l
  induction l with
  | nil => intro _; rfl
  | cons y l ih =>
    intro h
    have hy := h y (List.mem_cons_self _ _)
    simp only [insertStable, hy,
      ih fun z hz => h z (List.mem_cons_of_mem _ hz)]

lemma sortfold_congr_S0 :
    ∀ (l acc : List MediaType), (∀ mt ∈ l, mt.S = 0) →
      (∀ mt ∈ acc, mt.S = 0) →
      l.foldl (fun acc x => insertStable lessSpec x acc) acc =
        l.foldl (fun acc x => insertStable lessSpecQI x acc) acc := by
  intro l
  induction l with
  | nil => intro acc _ _; rfl
  | cons x l ih =>
    intro acc hl hacc
    simp only [List.foldl_cons]
    have hx : x.S = 0 := hl x (List.mem_cons_self _ _)
    have hins : insertStable lessSpec x acc = insertStable lessSpecQI x acc :=
      insertStable_congr _ _ x acc fun y hy =>
        lessSpec_of_S_zero x y hx (hacc y hy)
    rw [hins]
    refine ih _ (fun mt hmt => hl mt (List.mem_cons_of_mem _ hmt)) ?_
    intro mt hmt
    rcases List.mem_cons.mp
        (((insertStable_perm lessSpecQI x acc).mem_iff).mp hmt) with rfl | h
    · exact hx
    · exact hacc mt h

lemma parseAcceptFrom_S_zero :
    ∀ (segs : List Str) (i : Nat) (mt : MediaType),
      mt ∈ parseAcceptFrom i segs → mt.S = 0 := by
  intro segs
  induction segs with
  | nil => intro i mt hmt; simp [parseAcceptFrom] at hmt
  | cons s rest ih =>
    intro i mt hmt
    simp only [parseAcceptFrom] at hmt
    cases h : parseMediaType (trimSpace s) i with
    | none =>
      rw [h] at hmt
      exact ih (i + 1) mt hmt
    | some mt0 =>
      rw [h] at hmt
      rcases List.mem_cons.mp hmt with rfl | hmt
      · exact parseMediaType_S _ _ _ h
      · exact ih (i + 1) mt hmt

/-- C10: every freshly parsed spec carries specificity score 0 (the score
field is only assigned during candidate matching), so in the no-candidates
branch the sort's specificity key never matters: on any list of score-zero
specs the stable sort with the full comparator equals the stable sort keyed
only on quality descending then original index ascending. -/
theorem C10_noCandidates_score_zero :
    (∀ (i : Nat) (segs : List Str) (mt : MediaType),
        mt ∈ parseAcceptFrom i segs → mt.S = 0) ∧
    (∀ l : List MediaType, (∀ mt ∈ l, mt.S = 0) →
        sortSliceStable lessSpec l = sortSliceStable lessSpecQI l) :=
  ⟨fun i segs mt hmt => parseAcceptFrom_S_zero segs i mt hmt,
   fun l hl => sortfold_congr_S0 l [] hl (by simp)⟩

theorem C10_witness :
    ({ «Type» := str "a", Subtype := str "b", Params := [], Q := 1,
       I := 0, S := 0 } : MediaType).S = 0 ∧
    sortSliceStable lessSpec
        [{ «Type» := str "a", Subtype := str "b", Params := [], Q := 1,
           I := 0, S := 0 },
         { «Type» := str "c", Subtype := str "d", Params := [], Q := mkRat 1 2,
           I := 1, S := 0 }] =
      sortSliceStable lessSpecQI
        [{ «Type» := str "a", Subtype := str "b", Params := [], Q := 1,
           I := 0, S := 0 },
         { «Type» := str "c", Subtype := str "d", Params := [], Q := mkRat 1 2,
           I := 1, S := 0 }] :=
  ⟨C10_noCandidates_score_zero.1 0 [str "a/b"]
     { «Type» := str "a", Subtype := str "b", Params := [], Q := 1,
       I := 0, S := 0 } (by decide),
   C10_noCandidates_score_zero.2
     [{ «Type» := str "a", Subtype := str "b", Params := [], Q := 1,
        I := 0, S := 0 },
      { «Type» := str "c", Subtype := str "d", Params := [], Q := mkRat 1 2,
        I := 1, S := 0 }] (by decide)⟩

/-! ## C7: the empty accept header accepts any well-formed candidate -/

lemma specify_star (c : Str) (p : MediaType)
    (hp : parseMediaType c 0 = some p) :
    ∃ s : Nat, specify c
      { «Type» := str "*", Subtype := str "*", Params := [], Q := 1,
        I := 0, S := 0 } 0 =
      some { «Type» := str "*", Subtype := str "*", Params := [], Q := 1,
             I := 0, S := s } := by
  simp only [specify, hp]
  cases hT : eqFold (str "*") p.«Type» with
  | true =>
    rw [if_pos rfl]
    cases hS : eqFold (str "*") p.Subtype with
    | true => exact ⟨4 ||| 2 ||| 0, rfl⟩
    | false =>
      rw [if_neg Bool.false_ne_true, if_neg (fun hne => hne rfl)]
      exact ⟨4 ||| 0 ||| 0, rfl⟩
  | false =>
    rw [if_neg Bool.false_ne_true, if_neg (fun hne => hne rfl)]
    cases hS : eqFold (str "*") p.Subtype with
    | true =>
      rw [if_pos rfl]
      exact ⟨0 ||| 2 ||| 0, rfl⟩
    | false =>
      rw [if_neg Bool.false_ne_true]
      exact ⟨0 ||| 0 ||| 0, rfl⟩

/-- C7: an empty accept header is treated as `*/*` with default quality 1,
so every single well-formed candidate (one that parses as type/subtype) is
returned unchanged as the one-element result. -/
theorem C7_empty_accept_matches_any (c : Str)
    (h : (parseMediaType c 0).isSome = true) :
    PreferredMediaTypes (str "") [c] = some [c] := by
  obtain ⟨p, hp⟩ := Option.isSome_iff_exists.mp h
  have hpipe : PreferredMediaTypes (str "") [c] =
      some (candidatesOutput
        (sortSliceStable lessSpec (parseAcceptSegs [str "*/*"])) [c]) := rfl
  rw [hpipe]
  have hparse : sortSliceStable lessSpec (parseAcceptSegs [str "*/*"]) =
      [{ «Type» := str "*", Subtype := str "*", Params := [], Q := 1,
         I := 0, S := 0 }] := by decide
  rw [hparse]
  obtain ⟨s, hs⟩ := specify_star c p hp
  have hgm : getMediaTypePriority c
      [{ «Type» := str "*", Subtype := str "*", Params := [], Q := 1,
         I := 0, S := 0 }] 0 =
      some { «Type» := str "*", Subtype := str "*", Params := [], Q := 1,
             I := 0, S := s } := by
    simp only [getMediaTypePriority, priorityFold, hs]
  simp only [candidatesOutput]
  have hen : ([c] : List Str).enum = [(0, c)] := rfl
  rw [hen]
  have hcomp : (([(0, c)] : List (ℕ × Str)).filterMap fun iv =>
      getMediaTypePriority iv.2
        [{ «Type» := str "*", Subtype := str "*", Params := [], Q := 1,
           I := 0, S := 0 }] iv.1) =
      [{ «Type» := str "*", Subtype := str "*", Params := [], Q := 1,
         I := 0, S := s }] := by
    simp only [List.filterMap_cons, List.filterMap_nil, hgm]
  rw [hcomp]
  simp only [List.filterMap_cons, List.filterMap_nil]
  rw [if_pos (show isQuality
    { «Type» := str "*", Subtype := str "*", Params := [], Q := 1,
      I := 0, S := s } = true from rfl)]
  rfl

theorem C7_witness :
    (parseMediaType (str "application/json") 0).isSome = true ∧
    PreferredMediaTypes (str "") [str "application/json"] =
      some [str "application/json"] :=
  ⟨by decide,
   C7_empty_accept_matches_any (str "application/json") (by decide)⟩

end Negotiator
